import Mathlib

/-!
Verification development for the tinydns repository.

The repository keeps an authoritative DNS zone as marker-tagged text lines
(data.py) and rebuilds part of it from a DHCP lease log (dhcpd.py).  This file
gives a shallow embedding of both modules and settles the specification claims
against it.  Python strings are modelled as lists of characters; the external
collaborators (the re module, the time module, the line source) enter as
function parameters.
-/

/-- Python strings are modelled as lists of characters. -/
abbrev PyStr := List Char

/-- Shorthand turning a Lean string literal into the character-list model. -/
def lit (s : String) : PyStr := s.toList

/-- Python str.strip() with no argument: drop leading and trailing whitespace. -/
def pyStrip (s : PyStr) : PyStr :=
  ((s.dropWhile Char.isWhitespace).reverse.dropWhile Char.isWhitespace).reverse

/-- Helper for pySplit, accumulating the current word in reverse. -/
def pySplitAux : PyStr → PyStr → List PyStr
  | [], acc => if acc = [] then [] else [acc.reverse]
  | c :: rest, acc =>
    if c.isWhitespace then
      if acc = [] then pySplitAux rest [] else acc.reverse :: pySplitAux rest []
    else pySplitAux rest (c :: acc)

/-- Python str.split() with no arguments: split on runs of whitespace, dropping
empty pieces. -/
def pySplit (s : PyStr) : List PyStr := pySplitAux s []

/-- Python s.split(":") as used on the remainder of a data line. -/
def splitC : PyStr → List PyStr
  | [] => [[]]
  | c :: rest =>
    if c = ':' then [] :: splitC rest
    else
      match splitC rest with
      | [] => [[c]]
      | g :: gs => (c :: g) :: gs

/-- Python ":".join(fields). -/
def joinC : List PyStr → PyStr
  | [] => []
  | [g] => g
  | g :: h :: t => g ++ ':' :: joinC (h :: t)

/-- The while-loop of _DataLine.__str__ that removes every trailing colon. -/
def stripT (s : PyStr) : PyStr := (s.reverse.dropWhile (fun c => c = ':')).reverse

/-- The record variants declared in data.py (each a _DataLine subclass). -/
inductive Variant where
  | location
  | nameServer
  | alias
  | mailExchange
  | text
  | pointer
  | cname
  | soa
  | generic
  | comment
  | blank
deriving DecidableEq

instance : Inhabited Variant := ⟨Variant.location⟩

/-- The field_names tuple of each variant. -/
def fieldNames : Variant → List PyStr
  | .location => [lit "name", lit "ip_prefix"]
  | .nameServer => [lit "domain", lit "ip", lit "server_name", lit "ttl", lit "stamp", lit "location"]
  | .alias => [lit "host_name", lit "ip", lit "ttl", lit "stamp", lit "location"]
  | .mailExchange => [lit "domain", lit "ip", lit "server_name", lit "distance", lit "ttl", lit "stamp", lit "location"]
  | .text => [lit "host_name", lit "text", lit "ttl", lit "stamp", lit "location"]
  | .pointer => [lit "reverse_name", lit "host_name", lit "ttl", lit "stamp", lit "location"]
  | .cname => [lit "host_name", lit "target", lit "ttl", lit "stamp", lit "location"]
  | .soa => [lit "host_name", lit "name_server", lit "contact", lit "serial", lit "refresh_time", lit "retry_time", lit "expire_time", lit "min_time", lit "ttl", lit "stamp", lit "location"]
  | .generic => [lit "host_name", lit "record_type", lit "data", lit "ttl", lit "stamp", lit "location"]
  | .comment => [lit "text"]
  | .blank => [lit "Null"]

/-- The markers tuple of each variant (Cname declares the plain string "C",
which iterates to the same single marker). -/
def markersOf : Variant → List PyStr
  | .location => [lit "%"]
  | .nameServer => [lit ".", lit "&"]
  | .alias => [lit "=", lit "+", lit "-"]
  | .mailExchange => [lit "@"]
  | .text => [lit "\x27"]
  | .pointer => [lit "^"]
  | .cname => [lit "C"]
  | .soa => [lit "Z"]
  | .generic => [lit ":"]
  | .comment => [lit "#"]
  | .blank => [lit ""]

/-- A data line object: its class, the marker chosen at construction time, and
the field values stored by set_fields in field_names order. -/
structure Record where
  variant : Variant
  marker : PyStr
  fields : List PyStr
deriving DecidableEq

/-- Location.__init__. -/
def Location.init (name : PyStr) ( ip_prefix : PyStr) : Record :=
  ⟨.location, lit "%", [name, ip_prefix]⟩

/-- NameServer.__init__: the soa flag selects the marker. -/
def NameServer.init (domain server_name ip : PyStr) (soa : Bool) (ttl stamp location : PyStr) : Record :=
  ⟨.nameServer, if soa then lit "." else lit "&", [domain, ip, server_name, ttl, stamp, location]⟩

/-- Alias.__init__: disabled wins over ptr when choosing the marker. -/
def Alias.init (host_name ip : PyStr) (ptr disabled : Bool) (ttl stamp location : PyStr) : Record :=
  ⟨.alias, if disabled then lit "-" else if ptr then lit "=" else lit "+", [host_name, ip, ttl, stamp, location]⟩

/-- MailExchange.__init__. -/
def MailExchange.init (domain server_name ip distance ttl stamp location : PyStr) : Record :=
  ⟨.mailExchange, lit "@", [domain, ip, server_name, distance, ttl, stamp, location]⟩

/-- Text.__init__. -/
def Text.init (host_name text ttl stamp location : PyStr) : Record :=
  ⟨.text, lit "\x27", [host_name, text, ttl, stamp, location]⟩

/-- Pointer.__init__. -/
def Pointer.init (reverse_name host_name ttl stamp location : PyStr) : Record :=
  ⟨.pointer, lit "^", [reverse_name, host_name, ttl, stamp, location]⟩

/-- Cname.__init__. -/
def Cname.init (host_name target ttl stamp location : PyStr) : Record :=
  ⟨.cname, lit "C", [host_name, target, ttl, stamp, location]⟩

/-- Soa.__init__. -/
def Soa.init (host_name name_server contact serial refresh_time retry_time expire_time min_time ttl stamp location : PyStr) : Record :=
  ⟨.soa, lit "Z", [host_name, name_server, contact, serial, refresh_time, retry_time, expire_time, min_time, ttl, stamp, location]⟩

/-- Generic.__init__. -/
def Generic.init (host_name record_type data ttl stamp location : PyStr) : Record :=
  ⟨.generic, lit ":", [host_name, record_type, data, ttl, stamp, location]⟩

/-- Comment.__init__. -/
def Comment.init (text : PyStr) : Record :=
  ⟨.comment, lit "#", [text]⟩

/-- Blank.__init__: ignores its arguments and stores a single empty field. -/
def Blank.init : Record :=
  ⟨.blank, [], [[]]⟩

/-- The zip-with-padding done by dict(map(_process_fields, field_names, fields))
in Python 2: when fields is shorter than field_names, map pads with None and
_process_fields turns None into the empty string. -/
def pad (n : Nat) (fs : List PyStr) : List PyStr := fs ++ List.replicate (n - fs.length) []

/-- The per-class create logic: keyword construction from the padded field
values, including the marker-driven flag inference of NameServer.create and
Alias.create.  NameServer.create sets soa to True when the marker is the
ampersand, which is also the default, so both branches pass true. -/
def createRaw (v : Variant) (marker : PyStr) (fs : List PyStr) : Record :=
  let f := pad (fieldNames v).length fs
  match v with
  | .location => Location.init (f.getD 0 []) (f.getD 1 [])
  | .nameServer =>
      NameServer.init (f.getD 0 []) (f.getD 2 []) (f.getD 1 [])
        (if marker = lit "&" then true else true) (f.getD 3 []) (f.getD 4 []) (f.getD 5 [])
  | .alias =>
      if marker = lit "-" then
        Alias.init (f.getD 0 []) (f.getD 1 []) true true (f.getD 2 []) (f.getD 3 []) (f.getD 4 [])
      else if marker = lit "+" then
        Alias.init (f.getD 0 []) (f.getD 1 []) false false (f.getD 2 []) (f.getD 3 []) (f.getD 4 [])
      else
        Alias.init (f.getD 0 []) (f.getD 1 []) true false (f.getD 2 []) (f.getD 3 []) (f.getD 4 [])
  | .mailExchange =>
      MailExchange.init (f.getD 0 []) (f.getD 2 []) (f.getD 1 []) (f.getD 3 []) (f.getD 4 []) (f.getD 5 []) (f.getD 6 [])
  | .text => Text.init (f.getD 0 []) (f.getD 1 []) (f.getD 2 []) (f.getD 3 []) (f.getD 4 [])
  | .pointer => Pointer.init (f.getD 0 []) (f.getD 1 []) (f.getD 2 []) (f.getD 3 []) (f.getD 4 [])
  | .cname => Cname.init (f.getD 0 []) (f.getD 1 []) (f.getD 2 []) (f.getD 3 []) (f.getD 4 [])
  | .soa =>
      Soa.init (f.getD 0 []) (f.getD 1 []) (f.getD 2 []) (f.getD 3 []) (f.getD 4 []) (f.getD 5 []) (f.getD 6 []) (f.getD 7 []) (f.getD 8 []) (f.getD 9 []) (f.getD 10 [])
  | .generic =>
      Generic.init (f.getD 0 []) (f.getD 1 []) (f.getD 2 []) (f.getD 3 []) (f.getD 4 []) (f.getD 5 [])
  | .comment => Comment.init (f.getD 0 [])
  | .blank => Blank.init

/-- _DataLine.create including the failure mode: when the split yields more
values than there are field names, Python 2 map pads the names with None, the
resulting dict has a None key, and cls(**kwargs) raises TypeError. -/
def createChecked (v : Variant) (marker : PyStr) (fs : List PyStr) : Except PyStr Record :=
  if (fieldNames v).length < fs.length then .error (lit "TypeError: keywords must be strings")
  else .ok (createRaw v marker fs)

/-- Association-list lookup used to model the marker dictionary. -/
def alookup : List (PyStr × Variant) → PyStr → Option Variant
  | [], _ => none
  | (k, v) :: rest, mk => if mk = k then some v else alookup rest mk

/-- One dict insertion of _map_marker_classes, with its has_key duplicate
check. -/
def insertMarker (table : List (PyStr × Variant)) (mk : PyStr) (cls : Variant) : Except PyStr (List (PyStr × Variant)) :=
  if (alookup table mk).isSome then .error (lit "Duplicate marker " ++ mk)
  else .ok (table ++ [(mk, cls)])

/-- The inner loop of _map_marker_classes over one class marker tuple. -/
def addMarkers (cls : Variant) : List PyStr → List (PyStr × Variant) → Except PyStr (List (PyStr × Variant))
  | [], table => .ok table
  | mk :: mks, table =>
    match insertMarker table mk cls with
    | .error e => .error e
    | .ok table2 => addMarkers cls mks table2

/-- _map_marker_classes: build the marker dictionary, failing fast on a
duplicate marker.  The abstract base class contributes no markers and is
omitted from the registered list. -/
def mapMarkerClasses : List Variant → List (PyStr × Variant) → Except PyStr (List (PyStr × Variant))
  | [], table => .ok table
  | c :: cs, table =>
    match addMarkers c (markersOf c) table with
    | .error e => .error e
    | .ok table2 => mapMarkerClasses cs table2

/-- The _DataLine subclasses found in the module globals. -/
def allVariants : List Variant :=
  [.location, .nameServer, .alias, .mailExchange, .text, .pointer, .cname, .soa, .generic, .comment, .blank]

/-- MARKER_CLASSES, the table built at import time. -/
def markerTable : List (PyStr × Variant) :=
  match mapMarkerClasses allVariants [] with
  | .ok t => t
  | .error _ => []

/-- Dictionary lookup MARKER_CLASSES[marker]. -/
def lookupMarker (mk : PyStr) : Option Variant := alookup markerTable mk

/-- The per-line body of Section.read: take line[0] as the marker (IndexError
on an empty line), split the remainder on colons, look the marker up in
MARKER_CLASSES (KeyError when absent), and build the record via create. -/
def parseLine (line : PyStr) : Except PyStr Record :=
  match line with
  | [] => .error (lit "IndexError: string index out of range")
  | m :: rest =>
    match lookupMarker [m] with
    | none => .error (lit "KeyError: " ++ [m])
    | some v => createChecked v [m] (splitC rest)

/-- _DataLine.__str__ (and the Comment override, which skips the trailing-colon
strip); Blank inherits the default. -/
def Record.str (r : Record) : PyStr :=
  match r.variant with
  | .comment => r.marker ++ joinC r.fields ++ ['\n']
  | _ => stripT (r.marker ++ joinC r.fields) ++ ['\n']

/-- The serialized line as the line source would hand it back: the record text
without its terminating newline. -/
def lineOf (r : Record) : PyStr := (Record.str r).dropLast

/-- _DataLine.__getitem__: the field value at the position of the name in
field_names. -/
def Record.getField (r : Record) (name : PyStr) : PyStr :=
  r.fields.getD ((fieldNames r.variant).indexOf name) []

/-- _DataLine.matches: False when the field is not declared, otherwise whether
the regex search hits the value.  The re module is an external collaborator
modelled by the reSearch parameter. -/
def Record.matches (reSearch : PyStr → PyStr → Bool) (r : Record) (field regex : PyStr) : Bool :=
  if field ∈ fieldNames r.variant then reSearch regex (r.getField field) else false

/-- A Section: the bound file name and the record list. -/
structure Sect where
  file_name : PyStr
  records : List Record
deriving DecidableEq

/-- Section.search: the records whose field matches, in sequence order. -/
def Sect.search (reSearch : PyStr → PyStr → Bool) (s : Sect) (field regex : PyStr) : List Record :=
  s.records.filter (fun r => Record.matches reSearch r field regex)

/-- The loop body of Section.read applied to the lines the bound file yields:
each parsed record is appended to the record list already present. -/
def readLines (recs : List Record) : List PyStr → Except PyStr (List Record)
  | [] => .ok recs
  | l :: ls =>
    match parseLine l with
    | .error e => .error e
    | .ok r => readLines (recs ++ [r]) ls

/-- Section.read on the lines of the bound file. -/
def Sect.read (s : Sect) (fileLines : List PyStr) : Except PyStr Sect :=
  match readLines s.records fileLines with
  | .error e => .error e
  | .ok recs => .ok ⟨s.file_name, recs⟩

/-- The whole authoritative zone: an ordered list of sections. -/
structure Auth where
  sections : List Sect
deriving DecidableEq

/-- AuthoritativeDNS.search: the source accumulates every section result into
a local results list but has no return statement, so the Python call always
evaluates to None; the Option result is therefore always none. -/
def Auth.search (reSearch : PyStr → PyStr → Bool) (a : Auth) (field regex : PyStr) : Option (List Record) :=
  let results := a.sections.foldl (fun acc s => acc ++ Sect.search reSearch s field regex) []
  none

/-- Modelled from the spec: the zone-level search is specified to return the
concatenation, in section order, of each section's search result; this is the
value the source builds and then drops. -/
def specZoneSearch (reSearch : PyStr → PyStr → Bool) (a : Auth) (field regex : PyStr) : List Record :=
  (a.sections.map (fun s => Sect.search reSearch s field regex)).flatten

/-- One DHCP lease record as dhcpd.py accumulates it: the IP from the opening
line, then MAC, expiration and hostname filled in while the block is open. -/
structure Lease where
  ip : PyStr
  mac : Option PyStr
  expiration : Option Nat
  host_name : Option PyStr
deriving DecidableEq

/-- Python 2 cmp on the optional expiration timestamps: None compares below
every number. -/
def optLE : Option Nat → Option Nat → Bool
  | none, _ => true
  | some _, none => false
  | some a, some b => a ≤ b

/-- Lease.__cmp__ as the boolean ordering the sort uses: by expiration. -/
def leaseLE (a b : Lease) : Bool := optLE a.expiration b.expiration

/-- The sort order of the lease list as a decidable relation. -/
def leaseR (a b : Lease) : Prop := leaseLE a b = true

instance : DecidableRel leaseR := fun a b => by
  unfold leaseR
  infer_instance

/-- Lease.__init__: the IP address is the second whitespace token of the
opening line (IndexError when it is missing). -/
def leaseInit (line : PyStr) : Except PyStr Lease :=
  match pySplit line with
  | _ :: ip :: _ => .ok ⟨ip, none, none, none⟩
  | _ => .error (lit "IndexError: list index out of range")

/-- Character removal, modelling host_name.replace(c, two quotes). -/
def removeChar (c : Char) (s : PyStr) : PyStr := s.filter (fun d => d ≠ c)

/-- Separator replacement, modelling host_name.replace(c, dash). -/
def replaceChar (c : Char) (s : PyStr) : PyStr := s.map (fun d => if d = c then '-' else d)

/-- The normalization pipeline of Lease.set_host_name up to (not including)
the lower-casing: strip quote characters, replace slash, backslash,
underscore and space by a dash, then drop the leading run of dashes. -/
def normalizeHost (h : PyStr) : PyStr :=
  ((replaceChar ' ' (replaceChar '_' (replaceChar '\\' (replaceChar '/'
    (removeChar '\x27' (removeChar '"' h)))))).dropWhile (fun c => c = '-'))

/-- Lease.set_host_name: when the normalized name is empty the lease is left
unchanged, otherwise the lower-cased name is stored. -/
def set_host_name (l : Lease) (h : PyStr) : Lease :=
  if normalizeHost h = [] then l
  else { l with host_name := some ((normalizeHost h).map Char.toLower) }

/-- Lease.add_line: drop the trailing semicolon position, split on whitespace,
and dispatch on the first tokens.  The time.mktime/time.strptime composition is
the external time collaborator pt; a None result models the strptime
ValueError on a malformed timestamp.  Out-of-range token accesses are the
Python IndexError. -/
def addLine (pt : PyStr → Option Nat) (l : Lease) (line : PyStr) : Except PyStr Lease :=
  match pySplit line.dropLast with
  | [] => .error (lit "IndexError: list index out of range")
  | f0 :: rest =>
    if f0 = lit "ends" then
      match rest with
      | _ :: f2 :: f3 :: _ =>
        match pt (f2 ++ ' ' :: f3) with
        | some t => .ok { l with expiration := some t }
        | none => .error (lit "ValueError: time data does not match format")
      | _ => .error (lit "IndexError: list index out of range")
    else if f0 = lit "hardware" ∧ rest.take 1 = [lit "ethernet"] then
      match rest with
      | _ :: f2 :: _ => .ok { l with mac := some f2 }
      | _ => .error (lit "IndexError: list index out of range")
    else if f0 = lit "client-hostname" then
      match rest with
      | f1 :: _ => .ok (set_host_name l f1)
      | [] => .error (lit "IndexError: list index out of range")
    else .ok l

/-- One line of the Leases.__init__ loop, preserving the elif chain: comment
and blank lines are skipped; with no open lease a line starting with
"lease " opens one and everything else is ignored; with an open lease a line
starting with the closing brace emits it and everything else goes through
add_line. -/
def leasesStep (pt : PyStr → Option Nat) (acc : List Lease × Option Lease) (rawLine : PyStr) : Except PyStr (List Lease × Option Lease) :=
  let line := pyStrip rawLine
  if (lit "#").isPrefixOf line ∨ line = [] then .ok acc
  else
    match acc.2 with
    | none =>
      if (lit "lease ").isPrefixOf line then
        match leaseInit line with
        | .error e => .error e
        | .ok l => .ok (acc.1, some l)
      else .ok acc
    | some cur =>
      if (lit "\x7d").isPrefixOf line then .ok (acc.1 ++ [cur], none)
      else
        match addLine pt cur line with
        | .error e => .error e
        | .ok cur2 => .ok (acc.1, some cur2)

/-- The whole Leases.__init__ loop over the log lines. -/
def scanLines (pt : PyStr → Option Nat) : List PyStr → List Lease × Option Lease → Except PyStr (List Lease × Option Lease)
  | [], acc => .ok acc
  | l :: ls, acc =>
    match leasesStep pt acc l with
    | .error e => .error e
    | .ok acc2 => scanLines pt ls acc2

/-- The lease store: the lease list after the final sort and reverse. -/
structure Leases where
  leases : List Lease
deriving DecidableEq

/-- Leases.__init__ end to end: scan the log, drop any still-open block, then
sort ascending by expiration (Python list.sort is a stable ascending sort by
__cmp__, modelled by the stable insertion sort) and reverse into descending
order. -/
def leasesOfLines (pt : PyStr → Option Nat) (lines : List PyStr) : Except PyStr Leases :=
  match scanLines pt lines ([], none) with
  | .error e => .error e
  | .ok (em, _) => .ok ⟨(List.insertionSort leaseR em).reverse⟩

/-- Leases.__getitem__: the first lease in the stored order whose MAC equals
the query, KeyError when none does. -/
def Leases.getitem (st : Leases) (mac : PyStr) : Except PyStr Lease :=
  match st.leases.find? (fun l => decide (l.mac = some mac)) with
  | some l => .ok l
  | none => .error (lit "KeyError: MAC not found in leases.")

/-- First-seen-per-MAC filter over a lease list, carrying the set of MAC
values already yielded. -/
def dedupByMac : List Lease → List (Option PyStr) → List Lease
  | [], _ => []
  | l :: ls, seen =>
    if l.mac ∈ seen then dedupByMac ls seen
    else l :: dedupByMac ls (l.mac :: seen)

/-- Modelled from the spec: the sync driver calls leases.yield_unique(), but
the Leases class in the source under review does not define that method.  The
spec describes it as yielding, for every MAC value that appears, exactly the
single most-current lease, duplicates by MAC suppressed in favour of the one
with the latest expiration; over the expiration-descending store this is the
first-seen-per-MAC scan. -/
def Leases.yield_unique (st : Leases) : List Lease := dedupByMac st.leases []

/-- Concrete stand-in for the external time collaborator, used only in closed
witness statements: it reads the digit characters of the timestamp as one
number. -/
def demoTime (s : PyStr) : Option Nat :=
  some (s.foldl (fun acc c => if c.isDigit then acc * 10 + (c.toNat - 48) else acc) 0)

/-! ### Helper lemmas about the string operations -/

/-- The trailing run of empty fields of a field list, removed. -/
def trimR (fs : List PyStr) : List PyStr := (fs.reverse.dropWhile (fun g => g = [])).reverse

theorem splitC_ne_nil (s : PyStr) : splitC s ≠ [] := by
  induction s with
  | nil => simp [splitC]
  | cons c rest ih =>
    simp only [splitC]
    split
    · simp
    · cases hsp : splitC rest <;> simp

theorem splitC_no_colon (s : PyStr) (h : ':' ∉ s) : splitC s = [s] := by
  induction s with
  | nil => rfl
  | cons c rest ih =>
    rw [List.mem_cons] at h
    push_neg at h
    have hc : ¬(c = ':') := fun e => h.1 e.symm
    simp only [splitC, if_neg hc, ih h.2]

theorem splitC_append (g t : PyStr) (h : ':' ∉ g) : splitC (g ++ ':' :: t) = g :: splitC t := by
  induction g with
  | nil => simp [splitC]
  | cons c g ih =>
    rw [List.mem_cons] at h
    push_neg at h
    have hc : ¬(c = ':') := fun e => h.1 e.symm
    rw [List.cons_append]
    simp only [splitC, if_neg hc, ih h.2]

theorem split_join (gs : List PyStr) (h0 : gs ≠ []) (h : ∀ g ∈ gs, ':' ∉ g) :
    splitC (joinC gs) = gs := by
  induction gs with
  | nil => exact absurd rfl h0
  | cons g rest ih =>
    cases rest with
    | nil => exact splitC_no_colon g (h g (by simp))
    | cons g2 t =>
      rw [show joinC (g :: g2 :: t) = g ++ ':' :: joinC (g2 :: t) from rfl,
        splitC_append g _ (h g (by simp)),
        ih (by simp) (fun x hx => h x (by simp [hx]))]

theorem splitC_two_le (s : PyStr) (h : ':' ∈ s) : 2 ≤ (splitC s).length := by
  induction s with
  | nil => simp at h
  | cons c rest ih =>
    simp only [splitC]
    by_cases hc : c = ':'
    · have := List.length_pos.mpr (splitC_ne_nil rest)
      simp [hc]
      omega
    · have hmem : ':' ∈ rest := by
        rcases List.mem_cons.mp h with h1 | h1
        · exact absurd h1.symm hc
        · exact h1
      have h2 := ih hmem
      rw [if_neg hc]
      cases hsp : splitC rest with
      | nil => exact absurd hsp (splitC_ne_nil rest)
      | cons a as =>
        rw [hsp] at h2
        simp only [List.length_cons] at h2 ⊢
        omega

theorem joinC_cons (g : PyStr) (gs : List PyStr) (h : gs ≠ []) :
    joinC (g :: gs) = g ++ ':' :: joinC gs := by
  cases gs with
  | nil => exact absurd rfl h
  | cons a t => rfl

theorem joinC_replicate (k : Nat) : joinC (List.replicate (k + 1) []) = List.replicate k ':' := by
  induction k with
  | zero => rfl
  | succ n ih =>
    rw [List.replicate_succ ([] : PyStr) (n + 1), joinC_cons _ _ (by simp), ih]
    simp [List.replicate_succ]

theorem joinC_append_rep (gs : List PyStr) (k : Nat) (h : gs ≠ []) :
    joinC (gs ++ List.replicate k []) = joinC gs ++ List.replicate k ':' := by
  induction gs with
  | nil => exact absurd rfl h
  | cons g rest ih =>
    cases rest with
    | nil =>
      cases k with
      | zero => simp
      | succ n =>
        rw [List.singleton_append, joinC_cons _ _ (by simp), joinC_replicate n]
        simp [List.replicate_succ, joinC]
    | cons g2 t =>
      rw [List.cons_append, joinC_cons g ((g2 :: t) ++ List.replicate k []) (by simp),
        ih (by simp), joinC_cons g (g2 :: t) (by simp)]
      simp

theorem dropWhile_colon_rep (k : Nat) (r : PyStr) :
    List.dropWhile (fun c => c = ':') (List.replicate k ':' ++ r) =
      List.dropWhile (fun c => c = ':') r := by
  induction k with
  | zero => rfl
  | succ n ih => simp [List.replicate_succ, List.dropWhile_cons, ih]

theorem stripT_append_rep (s : PyStr) (k : Nat) :
    stripT (s ++ List.replicate k ':') = stripT s := by
  unfold stripT
  rw [List.reverse_append, List.reverse_replicate, dropWhile_colon_rep]

theorem stripT_of_getLast (s : PyStr) (c : Char) (h1 : s.getLast? = some c) (h2 : c ≠ ':') :
    stripT s = s := by
  unfold stripT
  rw [List.getLast?_eq_head?_reverse] at h1
  cases hrev : s.reverse with
  | nil => rw [hrev] at h1; simp at h1
  | cons a t =>
    rw [hrev] at h1
    simp only [List.head?_cons, Option.some.injEq] at h1
    subst h1
    rw [List.dropWhile_cons, if_neg (by simpa using h2), ← hrev, List.reverse_reverse]

theorem head_dropWhile_false {α : Type} (p : α → Bool) (l : List α) (a : α) (t : List α)
    (h : List.dropWhile p l = a :: t) : p a = false := by
  induction l with
  | nil => simp [List.dropWhile] at h
  | cons x xs ih =>
    rw [List.dropWhile_cons] at h
    by_cases hx : p x = true
    · rw [if_pos hx] at h
      exact ih h
    · rw [if_neg hx] at h
      cases h
      simpa using hx

theorem trimR_decomp (fs : List PyStr) : ∃ k, fs = trimR fs ++ List.replicate k [] := by
  have htake : List.takeWhile (fun g => decide (g = [])) fs.reverse =
      List.replicate (List.takeWhile (fun g => decide (g = [])) fs.reverse).length ([] : PyStr) := by
    apply List.eq_replicate_of_mem
    intro b hb
    simpa using List.mem_takeWhile_imp hb
  refine ⟨(List.takeWhile (fun g => decide (g = [])) fs.reverse).length, ?_⟩
  conv_lhs =>
    rw [← List.reverse_reverse fs,
      ← List.takeWhile_append_dropWhile (fun g => decide (g = [])) fs.reverse]
  rw [List.reverse_append]
  congr 1
  conv_lhs => rw [htake, List.reverse_replicate]

theorem trimR_length_le (fs : List PyStr) : (trimR fs).length ≤ fs.length := by
  simp only [trimR, List.length_reverse]
  calc (List.dropWhile (fun g => decide (g = [])) fs.reverse).length
      ≤ fs.reverse.length := (List.dropWhile_sublist _).length_le
    _ = fs.length := List.length_reverse fs

theorem trimR_mem (fs : List PyStr) (g : PyStr) (h : g ∈ trimR fs) : g ∈ fs := by
  simp only [trimR, List.mem_reverse] at h
  exact List.mem_reverse.mp ((List.dropWhile_sublist _).mem h)

theorem trimR_getLast (fs : List PyStr) (h : trimR fs ≠ []) :
    ∃ g, (trimR fs).getLast? = some g ∧ g ≠ [] := by
  cases hd : List.dropWhile (fun g => decide (g = [])) fs.reverse with
  | nil => exact absurd (by simp [trimR, hd]) h
  | cons a t =>
    refine ⟨a, ?_, ?_⟩
    · simp [trimR, hd, List.getLast?_reverse]
    · have := head_dropWhile_false _ _ _ _ hd
      simpa using this

theorem trimR_nil_all (fs : List PyStr) (h : trimR fs = []) : ∀ g ∈ fs, g = [] := by
  obtain ⟨k, hk⟩ := trimR_decomp fs
  rw [h, List.nil_append] at hk
  intro g hg
  rw [hk] at hg
  exact List.eq_of_mem_replicate hg

theorem pad_trimR (fs : List PyStr) (n : Nat) (h : fs.length = n) : pad n (trimR fs) = fs := by
  obtain ⟨k, hk⟩ := trimR_decomp fs
  have hlen : (trimR fs).length + k = n := by
    rw [hk, List.length_append, List.length_replicate] at h
    exact h
  unfold pad
  rw [show n - (trimR fs).length = k from by omega]
  exact hk.symm

theorem map_range_getD (f : List PyStr) :
    (List.range f.length).map (fun i => f.getD i []) = f := by
  induction f with
  | nil => rfl
  | cons a t ih =>
    rw [List.length_cons, List.range_succ_eq_map]
    simp only [List.map_cons, List.map_map]
    congr 1

theorem pad_length (n : Nat) (fs : List PyStr) (h : fs.length ≤ n) : (pad n fs).length = n := by
  simp only [pad, List.length_append, List.length_replicate]
  omega

theorem pad_eq_self (n : Nat) (fs : List PyStr) (h : fs.length = n) : pad n fs = fs := by
  simp [pad, h]

theorem createRaw_spec (v : Variant) (mk : PyStr) (fs : List PyStr)
    (hvb : v ≠ Variant.blank) (h : fs.length ≤ (fieldNames v).length) :
    (createRaw v mk fs).variant = v ∧
      (createRaw v mk fs).fields = pad (fieldNames v).length fs := by
  have hlen : (pad (fieldNames v).length fs).length = (fieldNames v).length := pad_length _ _ h
  have hmap := map_range_getD (pad (fieldNames v).length fs)
  rw [hlen] at hmap
  cases v <;> first
    | exact absurd rfl hvb
    | exact ⟨rfl, by rw [← hmap]; rfl⟩
    | (refine ⟨?_, ?_⟩ <;>
        (simp only [createRaw]
         split_ifs <;> first | rfl | (rw [← hmap]; rfl)))

theorem joinC_ne_nil (gs : List PyStr) (g : PyStr) (hlast : gs.getLast? = some g)
    (hg : g ≠ []) : joinC gs ≠ [] := by
  cases gs with
  | nil => simp at hlast
  | cons a rest =>
    cases rest with
    | nil =>
      simp only [List.getLast?_singleton, Option.some.injEq] at hlast
      subst hlast
      exact hg
    | cons b t =>
      rw [joinC_cons _ _ (by simp)]
      simp

theorem joinC_getLast (gs : List PyStr) (g : PyStr) (hg : g ≠ [])
    (hlast : gs.getLast? = some g) : (joinC gs).getLast? = g.getLast? := by
  induction gs with
  | nil => simp at hlast
  | cons a rest ih =>
    cases rest with
    | nil =>
      simp only [List.getLast?_singleton, Option.some.injEq] at hlast
      subst hlast
      rfl
    | cons b t =>
      rw [List.getLast?_cons_cons] at hlast
      have hjne : joinC (b :: t) ≠ [] := joinC_ne_nil _ _ hlast hg
      rw [joinC_cons _ _ (by simp), List.getLast?_append]
      cases hj : joinC (b :: t) with
      | nil => exact absurd hj hjne
      | cons x xs =>
        rw [show (':' :: x :: xs).getLast? = (x :: xs).getLast? from List.getLast?_cons_cons]
        have hix := ih hlast
        rw [hj] at hix
        rw [hix]
        cases hgl : g.getLast? with
        | none =>
          rw [List.getLast?_eq_none_iff] at hgl
          exact absurd hgl hg
        | some c => rw [Option.or_some]

theorem stripT_cons_no_colon (m : Char) (t : PyStr) (hm : m ≠ ':') (ht : ':' ∉ t) :
    stripT (m :: t) = m :: t := by
  cases hgl : t.getLast? with
  | none =>
    rw [List.getLast?_eq_none_iff] at hgl
    subst hgl
    apply stripT_of_getLast _ m (by simp) hm
  | some c =>
    have hc : c ∈ t := List.mem_of_mem_getLast? (by simp [hgl])
    apply stripT_of_getLast _ c _ (fun he => ht (he ▸ hc))
    rw [List.getLast?_cons, hgl]
    rfl

/-- A record is well formed when its field list has the declared arity, its
marker is one of its class markers, and a Blank record carries the single
empty field its constructor stores. -/
def Record.wf (r : Record) : Prop :=
  r.fields.length = (fieldNames r.variant).length ∧
    r.marker ∈ markersOf r.variant ∧
    (r.variant = Variant.blank → r.fields = [[]])

instance (r : Record) : Decidable (Record.wf r) := by
  unfold Record.wf
  infer_instance

theorem lookup_of_marker (v : Variant) (hv : v ≠ Variant.blank) (mk : PyStr)
    (hmk : mk ∈ markersOf v) : ∃ m : Char, mk = [m] ∧ lookupMarker [m] = some v := by
  cases v with
  | blank => exact absurd rfl hv
  | location =>
    have h : mk = lit "%" := by simpa [markersOf] using hmk
    exact ⟨'%', by rw [h]; rfl, by decide⟩
  | nameServer =>
    have h : mk = lit "." ∨ mk = lit "&" := by simpa [markersOf] using hmk
    rcases h with h | h
    · exact ⟨'.', by rw [h]; rfl, by decide⟩
    · exact ⟨'&', by rw [h]; rfl, by decide⟩
  | mailExchange =>
    have h : mk = lit "@" := by simpa [markersOf] using hmk
    exact ⟨'@', by rw [h]; rfl, by decide⟩
  | text =>
    have h : mk = lit "\x27" := by simpa [markersOf] using hmk
    exact ⟨'\x27', by rw [h]; rfl, by decide⟩
  | pointer =>
    have h : mk = lit "^" := by simpa [markersOf] using hmk
    exact ⟨'^', by rw [h]; rfl, by decide⟩
  | cname =>
    have h : mk = lit "C" := by simpa [markersOf] using hmk
    exact ⟨'C', by rw [h]; rfl, by decide⟩
  | soa =>
    have h : mk = lit "Z" := by simpa [markersOf] using hmk
    exact ⟨'Z', by rw [h]; rfl, by decide⟩
  | generic =>
    have h : mk = lit ":" := by simpa [markersOf] using hmk
    exact ⟨':', by rw [h]; rfl, by decide⟩
  | comment =>
    have h : mk = lit "#" := by simpa [markersOf] using hmk
    exact ⟨'#', by rw [h]; rfl, by decide⟩
  | _ =>
    have h : mk = lit "=" ∨ mk = lit "+" ∨ mk = lit "-" := by simpa [markersOf] using hmk
    rcases h with h | h | h
    · exact ⟨'=', by rw [h]; rfl, by decide⟩
    · exact ⟨'+', by rw [h]; rfl, by decide⟩
    · exact ⟨'-', by rw [h]; rfl, by decide⟩

theorem fieldNames_pos (v : Variant) : 1 ≤ (fieldNames v).length := by
  cases v <;> simp [fieldNames]

theorem parse_of_marker_join (v : Variant) (m : Char) (fs : List PyStr)
    (hlook : lookupMarker [m] = some v)
    (hvb : v ≠ Variant.blank)
    (hlen : fs.length = (fieldNames v).length)
    (hcf : ∀ g ∈ fs, ':' ∉ g)
    (hne : stripT (m :: joinC fs) ≠ []) :
    ∃ r2 : Record, parseLine (stripT (m :: joinC fs)) = .ok r2 ∧
      r2.variant = v ∧ r2.fields = fs := by
  have hn1 : 1 ≤ (fieldNames v).length := fieldNames_pos v
  by_cases htr : trimR fs = []
  · have hall : ∀ g ∈ fs, g = [] := trimR_nil_all fs htr
    have hfs : fs = List.replicate (fieldNames v).length [] := by
      have h0 := List.eq_replicate_of_mem hall
      rw [hlen] at h0
      exact h0
    obtain ⟨n0, hn0⟩ : ∃ n0, (fieldNames v).length = n0 + 1 :=
      ⟨(fieldNames v).length - 1, by omega⟩
    have hjoin : joinC fs = List.replicate n0 ':' := by
      rw [hfs, hn0]
      exact joinC_replicate n0
    have hm : ¬(m = ':') := by
      intro he
      apply hne
      rw [hjoin, he,
        show (':' :: List.replicate n0 ':') = ([] : PyStr) ++ List.replicate (n0 + 1) ':' from by
          simp [List.replicate_succ],
        stripT_append_rep]
      rfl
    have hstrip : stripT (m :: joinC fs) = [m] := by
      rw [hjoin, show (m :: List.replicate n0 ':') = [m] ++ List.replicate n0 ':' from rfl,
        stripT_append_rep]
      exact stripT_of_getLast [m] m (by simp) hm
    rw [hstrip]
    have hc := createRaw_spec v [m] [[]] hvb (by simpa using hn1)
    refine ⟨createRaw v [m] [[]], ?_, hc.1, ?_⟩
    · have h1 : parseLine [m] = createChecked v [m] [[]] := by
        simp [parseLine, hlook, splitC]
      rw [h1]
      unfold createChecked
      rw [if_neg (by simp only [List.length_singleton]; omega)]
    · rw [hc.2, hfs, hn0]
      simp [pad, List.replicate_succ]
  · obtain ⟨k, hk⟩ := trimR_decomp fs
    have hgs_ne : trimR fs ≠ [] := htr
    have hjoin : joinC fs = joinC (trimR fs) ++ List.replicate k ':' := by
      conv_lhs => rw [hk]
      exact joinC_append_rep _ k hgs_ne
    obtain ⟨g, hg1, hg2⟩ := trimR_getLast fs htr
    have hglastc : ∃ c, g.getLast? = some c ∧ c ≠ ':' := by
      cases hgc : g.getLast? with
      | none =>
        rw [List.getLast?_eq_none_iff] at hgc
        exact absurd hgc hg2
      | some c =>
        refine ⟨c, rfl, fun hcc => ?_⟩
        have hcin : c ∈ g := List.mem_of_mem_getLast? (by simp [hgc])
        have hgin : g ∈ fs := trimR_mem fs g (List.mem_of_mem_getLast? (by simp [hg1]))
        exact hcf g hgin (hcc ▸ hcin)
    obtain ⟨c, hc1, hc2⟩ := hglastc
    have hjl : (joinC (trimR fs)).getLast? = g.getLast? := joinC_getLast _ g hg2 hg1
    have hstrip : stripT (m :: joinC fs) = m :: joinC (trimR fs) := by
      rw [hjoin,
        show m :: (joinC (trimR fs) ++ List.replicate k ':') =
          (m :: joinC (trimR fs)) ++ List.replicate k ':' from rfl,
        stripT_append_rep]
      apply stripT_of_getLast _ c _ hc2
      rw [List.getLast?_cons, hjl, hc1]
      rfl
    rw [hstrip]
    have hsplit : splitC (joinC (trimR fs)) = trimR fs :=
      split_join _ hgs_ne (fun x hx => hcf x (trimR_mem fs x hx))
    have hlenle : (trimR fs).length ≤ (fieldNames v).length := hlen ▸ trimR_length_le fs
    have hc := createRaw_spec v [m] (trimR fs) hvb hlenle
    refine ⟨createRaw v [m] (trimR fs), ?_, hc.1, ?_⟩
    · simp only [parseLine, hlook, hsplit]
      unfold createChecked
      rw [if_neg (by omega)]
    · rw [hc.2]
      exact pad_trimR fs _ hlen

/-! ### C1: the parse/serialize round trip -/

/-- C1 (amended): for every well-formed record of a variant other than Blank,
whose field values contain no colon and whose serialized line is not the empty
line (this also excludes the Generic record with all fields empty, whose
marker is swallowed by the trailing-colon strip), parsing the serialized line
yields a record of the same variant with exactly the same field values — the
trailing empty fields dropped by serialization are recreated by the padding of
create. -/
theorem c1_roundtrip_amended (r : Record) (hwf : Record.wf r)
    (hcf : ∀ g ∈ r.fields, ':' ∉ g) (hne : lineOf r ≠ []) :
    ∃ r2 : Record, parseLine (lineOf r) = .ok r2 ∧
      r2.variant = r.variant ∧ r2.fields = r.fields := by
  obtain ⟨v, mk, fs⟩ := r
  have hlen : fs.length = (fieldNames v).length := hwf.1
  have hmk : mk ∈ markersOf v := hwf.2.1
  have hbl : v = Variant.blank → fs = [[]] := hwf.2.2
  by_cases hvb : v = Variant.blank
  · subst hvb
    exfalso
    apply hne
    have hfs : fs = [[]] := hbl rfl
    have hmk2 : mk = [] := by simpa [markersOf, lit] using hmk
    subst hfs
    subst hmk2
    rfl
  by_cases hvc : v = Variant.comment
  · subst hvc
    have hmk2 : mk = lit "#" := by simpa [markersOf] using hmk
    subst hmk2
    obtain ⟨t, hts⟩ : ∃ t, fs = [t] := by
      cases fs with
      | nil => simp [fieldNames] at hlen
      | cons t rest =>
        cases rest with
        | nil => exact ⟨t, rfl⟩
        | cons b u => simp [fieldNames] at hlen
    subst hts
    have htc : ':' ∉ t := hcf t (by simp)
    have hline : lineOf ⟨Variant.comment, lit "#", [t]⟩ = '#' :: t := by
      show ((lit "#" ++ joinC [t]) ++ ['\n']).dropLast = '#' :: t
      rw [List.dropLast_concat]
      rfl
    have hstrip : stripT ('#' :: joinC [t]) = '#' :: t :=
      stripT_cons_no_colon '#' t (by decide) htc
    have hne2 : stripT ('#' :: joinC [t]) ≠ [] := by
      rw [hstrip]
      simp
    obtain ⟨r2, h1, h2, h3⟩ :=
      parse_of_marker_join Variant.comment '#' [t] (by decide) (by decide) hlen hcf hne2
    refine ⟨r2, ?_, h2, h3⟩
    rw [hline, ← hstrip]
    exact h1
  · obtain ⟨m, hmkeq, hlook⟩ := lookup_of_marker v hvb mk hmk
    subst hmkeq
    have hline : lineOf ⟨v, [m], fs⟩ = stripT (m :: joinC fs) := by
      cases v <;> first
        | exact absurd rfl hvb
        | exact absurd rfl hvc
        | (show ((stripT ([m] ++ joinC fs)) ++ ['\n']).dropLast = stripT (m :: joinC fs)
           rw [List.dropLast_concat]
           rfl)
    rw [hline] at hne ⊢
    exact parse_of_marker_join v m fs hlook hvb hlen hcf hne

/-- C1 counterexample: the Blank record of the supported set serializes to the
empty line, and parsing that line fails outright (line[0] is an IndexError),
so no parsed record — let alone a field-for-field equal one — comes back. -/
theorem c1_blank_fails_roundtrip :
    lineOf Blank.init = [] ∧
    parseLine (lineOf Blank.init) = .error (lit "IndexError: string index out of range") ∧
    ∀ r2 : Record, ¬(parseLine (lineOf Blank.init) = .ok r2 ∧
      r2.variant = Variant.blank ∧ r2.fields = Blank.init.fields) := by
  refine ⟨rfl, rfl, ?_⟩
  intro r2 h
  have h1 := h.1
  rw [show lineOf Blank.init = ([] : PyStr) from rfl] at h1
  simp [parseLine] at h1

/-- A concrete Alias record with one set optional field and trailing empty
fields, used to witness the round-trip theorem. -/
def demoAlias : Record :=
  Alias.init (lit "gw.example.com") (lit "10.0.0.1") true false (lit "300") [] []

/-- Witness for the amended C1 theorem at a concrete Alias record. -/
theorem c1_roundtrip_witness :
    Record.wf demoAlias ∧ (∀ g ∈ demoAlias.fields, ':' ∉ g) ∧ lineOf demoAlias ≠ [] ∧
      ∃ r2 : Record, parseLine (lineOf demoAlias) = .ok r2 ∧
        r2.variant = demoAlias.variant ∧ r2.fields = demoAlias.fields :=
  ⟨by decide, by decide, by decide,
    c1_roundtrip_amended demoAlias (by decide) (by decide) (by decide)⟩

/-! ### C2: the ampersand marker and the soa flag -/

/-- C2 (code bug exhibited): parsing a NameServer line whose marker is the
ampersand constructs the record with soa staying True — the create branch
assigns True, which is already the keyword default — so the parsed record
carries the authoritative marker and re-serializes with a leading dot, never
with the ampersand it was read from. -/
theorem c2_ampersand_parses_as_authoritative :
    parseLine (lit "&example.com:1.2.3.4:ns1.example.com") =
      .ok (NameServer.init (lit "example.com") (lit "ns1.example.com") (lit "1.2.3.4")
        true [] [] []) ∧
    (NameServer.init (lit "example.com") (lit "ns1.example.com") (lit "1.2.3.4")
      true [] [] []).marker = lit "." ∧
    Record.str (NameServer.init (lit "example.com") (lit "ns1.example.com") (lit "1.2.3.4")
      true [] [] []) = lit ".example.com:1.2.3.4:ns1.example.com\n" ∧
    Record.str (NameServer.init (lit "example.com") (lit "ns1.example.com") (lit "1.2.3.4")
      false [] [] []) = lit "&example.com:1.2.3.4:ns1.example.com\n" := by
  refine ⟨?_, rfl, ?_, ?_⟩ <;> rfl

/-! ### C3: zone-level search -/

/-- Concrete stand-in for the external regular-expression collaborator, used
in closed statements: substring search. -/
def substrMatch (pattern value : PyStr) : Bool := decide (pattern <:+: value)

/-- A record that matches the demo search below. -/
def demoMatchRecord : Record :=
  Alias.init (lit "pc.example.com") (lit "10.0.0.2") true false [] [] []

/-- A one-section zone holding the matching record. -/
def demoAuth : Auth := ⟨[⟨[], [demoMatchRecord]⟩]⟩

/-- C3 (code bug exhibited): the zone-level search builds the concatenated
per-section results but falls off the end of the function, so every call
returns None — here shown on a zone where the specified concatenation is the
non-empty list of matches, and in general for all arguments. -/
theorem c3_zone_search_returns_none :
    Auth.search substrMatch demoAuth (lit "host_name") (lit "pc") = none ∧
    specZoneSearch substrMatch demoAuth (lit "host_name") (lit "pc") = [demoMatchRecord] ∧
    ∀ (reSearch : PyStr → PyStr → Bool) (a : Auth) (field regex : PyStr),
      Auth.search reSearch a field regex = none := by
  exact ⟨rfl, rfl, fun _ _ _ _ => rfl⟩

/-! ### C4: Section.read appends instead of replacing -/

/-- Parsing every line of a file independently, in order, first error wins;
this is the record sequence the spec says read should leave in the section. -/
def parseLinesAll : List PyStr → Except PyStr (List Record)
  | [] => .ok []
  | l :: ls =>
    match parseLine l with
    | .error e => .error e
    | .ok r =>
      match parseLinesAll ls with
      | .error e => .error e
      | .ok rs => .ok (r :: rs)

theorem readLines_decomp (ls : List PyStr) :
    ∀ recs : List Record,
      readLines recs ls =
        match parseLinesAll ls with
        | .error e => .error e
        | .ok rs => .ok (recs ++ rs) := by
  induction ls with
  | nil => intro recs; simp [readLines, parseLinesAll]
  | cons l ls ih =>
    intro recs
    simp only [readLines, parseLinesAll]
    cases parseLine l with
    | error e => rfl
    | ok r =>
      dsimp only
      rw [ih (recs ++ [r])]
      cases parseLinesAll ls with
      | error e => rfl
      | ok rs =>
        dsimp only
        simp

/-- C4 (amended): Section.read appends the records parsed from the file lines
after the records already in the section; the records present before the call
remain, in front, and the bound file name is unchanged. -/
theorem c4_read_appends (s : Sect) (fileLines : List PyStr) :
    Sect.read s fileLines =
      match parseLinesAll fileLines with
      | .error e => .error e
      | .ok rs => .ok ⟨s.file_name, s.records ++ rs⟩ := by
  unfold Sect.read
  rw [readLines_decomp fileLines s.records]
  cases parseLinesAll fileLines <;> rfl

/-- A comment record held by a section before read is called. -/
def demoOldComment : Record := Comment.init (lit " old records")

/-- A section bound to a file and already holding a record. -/
def demoSectPre : Sect := ⟨lit "zone.static", [demoOldComment]⟩

/-- C4 counterexample: after read, the record that was in the section before
the call is still there (in front of the parsed ones), refuting the claim
that prior records do not remain in the sequence. -/
theorem c4_read_keeps_prior_records :
    Sect.read demoSectPre [lit "%lan:10.1"] =
      .ok ⟨lit "zone.static", [demoOldComment, Location.init (lit "lan") (lit "10.1")]⟩ ∧
    ∀ out : Sect, Sect.read demoSectPre [lit "%lan:10.1"] = .ok out →
      demoOldComment ∈ out.records := by
  refine ⟨rfl, ?_⟩
  intro out h
  rw [show Sect.read demoSectPre [lit "%lan:10.1"] =
    .ok (⟨lit "zone.static", [demoOldComment, Location.init (lit "lan") (lit "10.1")]⟩ : Sect)
    from rfl] at h
  injection h with h2
  rw [← h2]
  simp

/-! ### C10: overflowing field counts are an error -/

theorem parseLine_overflow (m : Char) (v : Variant) (rest : PyStr)
    (hl : lookupMarker [m] = some v)
    (hlen : (fieldNames v).length < (splitC rest).length) :
    parseLine (m :: rest) = .error (lit "TypeError: keywords must be strings") := by
  simp only [parseLine, hl]
  unfold createChecked
  rw [if_pos hlen]

/-- C10: when the remainder of a data line splits into more colon-separated
values than the variant declares field names, construction fails (the Python 2
keyword dict acquires a None key and cls(**kwargs) raises TypeError) instead
of silently dropping the extra values; in particular a Comment whose text
contains a colon serializes verbatim but can never be parsed back. -/
theorem c10_extra_fields_error :
    (∀ (v : Variant) (mk : PyStr) (fs : List PyStr),
      (fieldNames v).length < fs.length →
      createChecked v mk fs = .error (lit "TypeError: keywords must be strings")) ∧
    (∀ (m : Char) (v : Variant) (rest : PyStr), lookupMarker [m] = some v →
      (fieldNames v).length < (splitC rest).length →
      parseLine (m :: rest) = .error (lit "TypeError: keywords must be strings")) ∧
    (∀ t : PyStr, ':' ∈ t →
      parseLine (lineOf (Comment.init t)) =
        .error (lit "TypeError: keywords must be strings")) := by
  refine ⟨?_, ?_, ?_⟩
  · intro v mk fs h
    unfold createChecked
    rw [if_pos h]
  · intro m v rest hl hlen
    exact parseLine_overflow m v rest hl hlen
  · intro t ht
    have hline : lineOf (Comment.init t) = '#' :: t := by
      show ((lit "#" ++ joinC [t]) ++ ['\n']).dropLast = '#' :: t
      rw [List.dropLast_concat]
      rfl
    rw [hline]
    apply parseLine_overflow '#' Variant.comment t (by decide)
    have h2 := splitC_two_le t ht
    simp only [fieldNames, List.length_singleton]
    omega

/-- Witness for C10 at concrete inputs: the serialized Comment "a:b" fails to
re-parse, and a Location line with three values overflows its two fields. -/
theorem c10_extra_fields_witness :
    ':' ∈ lit "a:b" ∧
    parseLine (lineOf (Comment.init (lit "a:b"))) =
      .error (lit "TypeError: keywords must be strings") ∧
    (fieldNames Variant.location).length < (splitC (lit "x:y:z")).length ∧
    createChecked Variant.location (lit "%") (splitC (lit "x:y:z")) =
      .error (lit "TypeError: keywords must be strings") :=
  ⟨by decide, c10_extra_fields_error.2.2 (lit "a:b") (by decide), by decide,
    c10_extra_fields_error.1 Variant.location (lit "%") (splitC (lit "x:y:z")) (by decide)⟩

/-! ### C7: the marker table -/

theorem alookup_isSome (t : List (PyStr × Variant)) (mk : PyStr) :
    (alookup t mk).isSome = true ↔ mk ∈ t.map Prod.fst := by
  induction t with
  | nil => simp [alookup]
  | cons p rest ih =>
    obtain ⟨k, v⟩ := p
    simp only [alookup, List.map_cons, List.mem_cons]
    by_cases h : mk = k
    · simp [h]
    · simp [h, ih]

theorem addMarkers_ok (c : Variant) :
    ∀ (mks : List PyStr) (t : List (PyStr × Variant)),
      (t.map Prod.fst ++ mks).Nodup →
      ∃ t2, addMarkers c mks t = .ok t2 ∧ t2.map Prod.fst = t.map Prod.fst ++ mks := by
  intro mks
  induction mks with
  | nil =>
    intro t h
    exact ⟨t, rfl, by simp⟩
  | cons mk mks ih =>
    intro t h
    have hmk : mk ∉ t.map Prod.fst := by
      intro hin
      exact List.disjoint_of_nodup_append h hin (by simp)
    unfold addMarkers insertMarker
    rw [if_neg (by simp [alookup_isSome, hmk])]
    dsimp only
    have h2 : ((t ++ [(mk, c)]).map Prod.fst ++ mks).Nodup := by
      simp only [List.map_append, List.map_cons, List.map_nil]
      simpa [List.append_assoc] using h
    obtain ⟨t2, ht1, ht2⟩ := ih (t ++ [(mk, c)]) h2
    refine ⟨t2, ht1, ?_⟩
    rw [ht2]
    simp [List.append_assoc]

theorem addMarkers_error (c : Variant) :
    ∀ (mks : List PyStr) (t : List (PyStr × Variant)),
      (t.map Prod.fst).Nodup → ¬(t.map Prod.fst ++ mks).Nodup →
      ∃ e, addMarkers c mks t = .error e := by
  intro mks
  induction mks with
  | nil =>
    intro t ht h
    exact absurd (by simpa using ht) h
  | cons mk mks ih =>
    intro t ht h
    by_cases hmk : mk ∈ t.map Prod.fst
    · unfold addMarkers insertMarker
      rw [if_pos ((alookup_isSome t mk).mpr hmk)]
      dsimp only
      exact ⟨lit "Duplicate marker " ++ mk, rfl⟩
    · unfold addMarkers insertMarker
      rw [if_neg (by simp [alookup_isSome, hmk])]
      dsimp only
      apply ih (t ++ [(mk, c)])
      · simp [List.nodup_append, ht, hmk]
      · intro hcontra
        apply h
        simp only [List.map_append, List.map_cons, List.map_nil] at hcontra
        simpa [List.append_assoc] using hcontra

theorem mapMarkerClasses_ok :
    ∀ (cs : List Variant) (t : List (PyStr × Variant)),
      (t.map Prod.fst ++ cs.flatMap markersOf).Nodup →
      ∃ t2, mapMarkerClasses cs t = .ok t2 ∧
        t2.map Prod.fst = t.map Prod.fst ++ cs.flatMap markersOf := by
  intro cs
  induction cs with
  | nil =>
    intro t h
    exact ⟨t, rfl, by simp⟩
  | cons c cs ih =>
    intro t h
    rw [List.flatMap_cons] at h
    have hpre : (t.map Prod.fst ++ markersOf c).Nodup := by
      rw [← List.append_assoc] at h
      exact (List.sublist_append_left _ _).nodup h
    obtain ⟨t2, h1, h2⟩ := addMarkers_ok c (markersOf c) t hpre
    unfold mapMarkerClasses
    rw [h1]
    dsimp only
    obtain ⟨t3, h3, h4⟩ := ih t2 (by rw [h2, List.append_assoc]; exact h)
    exact ⟨t3, h3, by rw [h4, h2, List.append_assoc, List.flatMap_cons]⟩

theorem mapMarkerClasses_error :
    ∀ (cs : List Variant) (t : List (PyStr × Variant)),
      (t.map Prod.fst).Nodup → ¬(t.map Prod.fst ++ cs.flatMap markersOf).Nodup →
      ∃ e, mapMarkerClasses cs t = .error e := by
  intro cs
  induction cs with
  | nil =>
    intro t ht h
    exact absurd (by simpa using ht) h
  | cons c cs ih =>
    intro t ht h
    rw [List.flatMap_cons] at h
    by_cases hpre : (t.map Prod.fst ++ markersOf c).Nodup
    · obtain ⟨t2, h1, h2⟩ := addMarkers_ok c (markersOf c) t hpre
      unfold mapMarkerClasses
      rw [h1]
      dsimp only
      apply ih t2 (by rw [h2]; exact hpre)
      intro hc
      apply h
      rw [h2, List.append_assoc] at hc
      exact hc
    · obtain ⟨e, he⟩ := addMarkers_error c (markersOf c) t ht hpre
      unfold mapMarkerClasses
      rw [he]
      dsimp only
      exact ⟨e, rfl⟩

/-- C7: building the marker dictionary fails (on the Duplicate marker check of
_map_marker_classes) exactly when the registered classes declare some marker
twice; with the classes the module actually registers it succeeds, and the
resulting table has pairwise distinct keys, so every marker selects exactly
one record variant. -/
theorem c7_marker_table :
    (∀ cs : List Variant,
      (∃ e, mapMarkerClasses cs [] = .error e) ↔ ¬(cs.flatMap markersOf).Nodup) ∧
    mapMarkerClasses allVariants [] = .ok markerTable ∧
    (markerTable.map Prod.fst).Nodup := by
  refine ⟨?_, by rfl, by decide⟩
  intro cs
  constructor
  · rintro ⟨e, he⟩ hnd
    obtain ⟨t2, h1, _⟩ := mapMarkerClasses_ok cs [] (by simpa using hnd)
    rw [he] at h1
    cases h1
  · intro hnd
    exact mapMarkerClasses_error cs [] (by simp) (by simpa using hnd)

/-- Witness for C7: registering the Location class twice collides on its
marker and fails, while registering two distinct classes succeeds. -/
theorem c7_marker_table_witness :
    (∃ e, mapMarkerClasses [Variant.location, Variant.location] [] = .error e) ∧
    ¬∃ e, mapMarkerClasses [Variant.location, Variant.soa] [] = .error e := by
  constructor
  · exact (c7_marker_table.1 [Variant.location, Variant.location]).mpr (by decide)
  · intro h
    exact absurd (by decide) ((c7_marker_table.1 [Variant.location, Variant.soa]).mp h)

/-! ### C8: hostname normalization -/

theorem mem_replaceChar (a : Char) (s : PyStr) (d : Char) (hd : d ∈ replaceChar a s) :
    d = '-' ∨ (d ∈ s ∧ d ≠ a) := by
  simp only [replaceChar, List.mem_map] at hd
  obtain ⟨e, he, heq⟩ := hd
  by_cases hea : e = a
  · rw [hea, if_pos rfl] at heq
    exact Or.inl heq.symm
  · rw [if_neg hea] at heq
    exact Or.inr ⟨heq ▸ he, heq ▸ hea⟩

theorem mem_removeChar (a : Char) (s : PyStr) (d : Char) (hd : d ∈ removeChar a s) :
    d ∈ s ∧ d ≠ a := by
  simp only [removeChar, List.mem_filter, decide_not] at hd
  refine ⟨hd.1, ?_⟩
  have := hd.2
  simpa using this

/-- A lease used in closed witness statements. -/
def demoLease : Lease := ⟨lit "10.0.0.9", none, none, some (lit "oldname")⟩

/-- C8: set_host_name strips quote characters, turns slash, backslash,
underscore and space into a dash, drops the leading dash run and lower-cases
the rest; an input that normalizes to the empty string leaves the lease
untouched, never overwriting an already-set hostname with an empty one.  The
normalized name contains none of the stripped or replaced characters and does
not start with a dash, and the two specification examples compute as stated. -/
theorem c8_set_host_name (l : Lease) (h : PyStr) :
    (normalizeHost h = [] → set_host_name l h = l) ∧
    (normalizeHost h ≠ [] →
      (set_host_name l h).host_name = some ((normalizeHost h).map Char.toLower)) ∧
    (∀ c ∈ normalizeHost h,
      c ≠ '"' ∧ c ≠ '\x27' ∧ c ≠ '/' ∧ c ≠ '\\' ∧ c ≠ '_' ∧ c ≠ ' ') ∧
    (normalizeHost h).head? ≠ some '-' ∧
    set_host_name l (lit "\"Jo Doe\"") = { l with host_name := some (lit "jo-doe") } ∧
    set_host_name l (lit "---Weird_Name\x27\"") =
      { l with host_name := some (lit "weird-name") } := by
  refine ⟨?_, ?_, ?_, ?_, ?_, ?_⟩
  · intro he
    unfold set_host_name
    rw [if_pos he]
  · intro hne
    unfold set_host_name
    rw [if_neg hne]
  · intro c hc
    have hc4 : c ∈ replaceChar ' ' (replaceChar '_' (replaceChar '\\' (replaceChar '/'
        (removeChar '\x27' (removeChar '"' h))))) :=
      (List.dropWhile_sublist _).mem hc
    rcases mem_replaceChar _ _ _ hc4 with rfl | ⟨hc3, hsp⟩
    · exact ⟨by decide, by decide, by decide, by decide, by decide, by decide⟩
    rcases mem_replaceChar _ _ _ hc3 with rfl | ⟨hc2, hus⟩
    · exact ⟨by decide, by decide, by decide, by decide, by decide, by decide⟩
    rcases mem_replaceChar _ _ _ hc2 with rfl | ⟨hc1, hbs⟩
    · exact ⟨by decide, by decide, by decide, by decide, by decide, by decide⟩
    rcases mem_replaceChar _ _ _ hc1 with rfl | ⟨hc0, hsl⟩
    · exact ⟨by decide, by decide, by decide, by decide, by decide, by decide⟩
    obtain ⟨hc0b, hq1⟩ := mem_removeChar _ _ _ hc0
    obtain ⟨_, hq2⟩ := mem_removeChar _ _ _ hc0b
    exact ⟨hq2, hq1, hsl, hbs, hus, hsp⟩
  · intro hd
    cases hnf : normalizeHost h with
    | nil => rw [hnf] at hd; simp at hd
    | cons a t =>
      rw [hnf] at hd
      simp only [List.head?_cons, Option.some.injEq] at hd
      have hfalse := head_dropWhile_false (fun c => c = '-')
        (replaceChar ' ' (replaceChar '_' (replaceChar '\\' (replaceChar '/'
          (removeChar '\x27' (removeChar '"' h)))))) a t hnf
      rw [hd] at hfalse
      simp at hfalse
  · unfold set_host_name
    rw [if_neg (by decide),
      show ((normalizeHost (lit "\"Jo Doe\"")).map Char.toLower) = lit "jo-doe" from by decide]
  · unfold set_host_name
    rw [if_neg (by decide),
      show ((normalizeHost (lit "---Weird_Name\x27\"")).map Char.toLower) = lit "weird-name"
        from by decide]

/-- Witness for C8: an input that normalizes to nothing leaves the lease (and
its previously set hostname) unchanged, and a mixed-case input with a space
is stored dashed and lower-cased. -/
theorem c8_set_host_name_witness :
    (normalizeHost (lit "-\"\x27") = [] ∧
      set_host_name demoLease (lit "-\"\x27") = demoLease) ∧
    (normalizeHost (lit "AB c") ≠ [] ∧
      (set_host_name demoLease (lit "AB c")).host_name = some (lit "ab-c")) := by
  refine ⟨⟨by decide, (c8_set_host_name demoLease (lit "-\"\x27")).1 (by decide)⟩,
    ⟨by decide, ?_⟩⟩
  have h2 := (c8_set_host_name demoLease (lit "AB c")).2.1 (by decide)
  rw [show ((normalizeHost (lit "AB c")).map Char.toLower) = lit "ab-c" from by decide] at h2
  exact h2

/-! ### C5: lookup by MAC returns the latest-expiring lease -/

theorem optLE_refl (a : Option Nat) : optLE a a = true := by
  cases a <;> simp [optLE]

theorem leaseLE_trans (a b c : Lease) (h1 : leaseLE a b = true) (h2 : leaseLE b c = true) :
    leaseLE a c = true := by
  unfold leaseLE optLE at *
  cases ha : a.expiration <;> cases hb : b.expiration <;> cases hc : c.expiration <;>
    rw [ha] at h1 <;> rw [hb] at h1 h2 <;> rw [hc] at h2 <;> simp_all <;> omega

theorem leaseLE_total (a b : Lease) : (leaseLE a b || leaseLE b a) = true := by
  unfold leaseLE optLE
  cases a.expiration <;> cases b.expiration <;> simp <;> omega

instance : IsTotal Lease leaseR :=
  ⟨fun a b => by
    unfold leaseR
    have h := leaseLE_total a b
    rw [Bool.or_eq_true] at h
    exact h⟩

instance : IsTrans Lease leaseR :=
  ⟨fun a b c h1 h2 => leaseLE_trans a b c h1 h2⟩

/-- The stored lease list is expiration-descending: sort ascending by
__cmp__, then reverse. -/
theorem store_sorted_desc (em : List Lease) :
    ((List.insertionSort leaseR em).reverse).Pairwise
      (fun a b => optLE b.expiration a.expiration = true) := by
  rw [List.pairwise_reverse]
  exact List.sorted_insertionSort leaseR em

/-- In a descending list, the first element satisfying a predicate has an
expiration at least as large as every element satisfying it. -/
theorem find_max_desc (p : Lease → Bool) :
    ∀ (xs : List Lease),
      xs.Pairwise (fun a b => optLE b.expiration a.expiration = true) →
      ∀ x, xs.find? p = some x → ∀ y ∈ xs, p y = true →
        optLE y.expiration x.expiration = true := by
  intro xs
  induction xs with
  | nil =>
    intro _ x hx
    simp at hx
  | cons a t ih =>
    intro hp x hfind y hy hpy
    by_cases hpa : p a = true
    · rw [List.find?_cons_of_pos t hpa] at hfind
      injection hfind with hax
      subst hax
      rcases List.mem_cons.mp hy with rfl | hyt
      · exact optLE_refl _
      · exact (List.pairwise_cons.mp hp).1 y hyt
    · rw [List.find?_cons_of_neg t hpa] at hfind
      rcases List.mem_cons.mp hy with rfl | hyt
      · exact absurd hpy hpa
      · exact ih (List.pairwise_cons.mp hp).2 x hfind y hyt hpy

/-- C5: over any parsed lease store, __getitem__ raises KeyError exactly when
no lease in the store has the queried MAC; when one does, it returns a stored
lease with that MAC whose expiration is maximal among all leases with that
MAC (an absent expiration comparing lowest); and the store is a permutation
of the emitted (fully closed) blocks, so these quantifications range over all
emitted leases. -/
theorem c5_getitem_latest (pt : PyStr → Option Nat) (lines : List PyStr) (st : Leases)
    (hst : leasesOfLines pt lines = .ok st) (m : PyStr) :
    ((∀ l ∈ st.leases, l.mac ≠ some m) →
      Leases.getitem st m = .error (lit "KeyError: MAC not found in leases.")) ∧
    ((∃ l ∈ st.leases, l.mac = some m) → ∃ x, Leases.getitem st m = .ok x) ∧
    (∀ x, Leases.getitem st m = .ok x →
      x ∈ st.leases ∧ x.mac = some m ∧
      ∀ l ∈ st.leases, l.mac = some m → optLE l.expiration x.expiration = true) ∧
    (∀ em cur, scanLines pt lines ([], none) = .ok (em, cur) → st.leases.Perm em) := by
  have hsorted : st.leases.Pairwise (fun a b => optLE b.expiration a.expiration = true) := by
    unfold leasesOfLines at hst
    cases hscan : scanLines pt lines ([], none) with
    | error e =>
      rw [hscan] at hst
      cases hst
    | ok p =>
      rw [hscan] at hst
      obtain ⟨em, cur⟩ := p
      dsimp only at hst
      injection hst with hst2
      rw [← hst2]
      exact store_sorted_desc em
  refine ⟨?_, ?_, ?_, ?_⟩
  · intro hnone
    unfold Leases.getitem
    rw [List.find?_eq_none.mpr (fun x hx => by simpa using hnone x hx)]
  · intro ⟨l, hl, hlm⟩
    have hsome : (st.leases.find? (fun l => decide (l.mac = some m))).isSome = true :=
      List.find?_isSome.mpr ⟨l, hl, by simpa using hlm⟩
    cases hfind : st.leases.find? (fun l => decide (l.mac = some m)) with
    | none => rw [hfind] at hsome; cases hsome
    | some x =>
      refine ⟨x, ?_⟩
      unfold Leases.getitem
      rw [hfind]
  · intro x hx
    unfold Leases.getitem at hx
    cases hfind : st.leases.find? (fun l => decide (l.mac = some m)) with
    | none =>
      rw [hfind] at hx
      cases hx
    | some y =>
      rw [hfind] at hx
      injection hx with hyx
      subst hyx
      refine ⟨List.mem_of_find?_eq_some hfind, by simpa using List.find?_some hfind, ?_⟩
      intro l hl hlm
      exact find_max_desc _ st.leases hsorted y hfind l hl (by simpa using hlm)
  · intro em cur hscan
    unfold leasesOfLines at hst
    rw [hscan] at hst
    dsimp only at hst
    injection hst with hst2
    rw [← hst2]
    exact (List.reverse_perm _).trans (List.perm_insertionSort leaseR em)

/-- A small lease log: two fully closed blocks sharing a MAC, the second
expiring later. -/
def demoLog : List PyStr :=
  [lit "lease 10.0.0.5 \x7b",
   lit "  hardware ethernet aa:bb;",
   lit "  ends 2 2024/01/02 03:04:05;",
   lit "\x7d",
   lit "lease 10.0.0.6 \x7b",
   lit "  hardware ethernet aa:bb;",
   lit "  ends 2 2025/01/02 03:04:05;",
   lit "\x7d"]

/-- The store parsed from demoLog. -/
def demoStore : Leases :=
  match leasesOfLines demoTime demoLog with
  | .ok st => st
  | .error _ => ⟨[]⟩

/-- Witness for C5: on the demo log the known MAC is found (and the T2 block
is what comes back), while an unknown MAC raises KeyError. -/
theorem c5_getitem_witness :
    leasesOfLines demoTime demoLog = .ok demoStore ∧
    (∃ l ∈ demoStore.leases, l.mac = some (lit "aa:bb")) ∧
    (∃ x, Leases.getitem demoStore (lit "aa:bb") = .ok x) ∧
    Leases.getitem demoStore (lit "ff:ff") =
      .error (lit "KeyError: MAC not found in leases.") ∧
    Leases.getitem demoStore (lit "aa:bb") =
      .ok ⟨lit "10.0.0.6", some (lit "aa:bb"), some 20250102030405, none⟩ := by
  refine ⟨rfl, by decide, ?_, ?_, by rfl⟩
  · exact (c5_getitem_latest demoTime demoLog demoStore rfl (lit "aa:bb")).2.1 (by decide)
  · exact (c5_getitem_latest demoTime demoLog demoStore rfl (lit "ff:ff")).1 (by decide)

/-! ### C6: yield_unique -/

theorem dedupByMac_sublist :
    ∀ (ls : List Lease) (seen : List (Option PyStr)), (dedupByMac ls seen).Sublist ls := by
  intro ls
  induction ls with
  | nil =>
    intro seen
    simp [dedupByMac]
  | cons l t ih =>
    intro seen
    unfold dedupByMac
    by_cases h : l.mac ∈ seen
    · rw [if_pos h]
      exact (ih seen).trans (List.sublist_cons_self l t)
    · rw [if_neg h]
      exact (ih (l.mac :: seen)).cons₂ l

theorem dedupByMac_first :
    ∀ (ls : List Lease) (seen : List (Option PyStr)) (u : Lease),
      u ∈ dedupByMac ls seen →
      u.mac ∉ seen ∧ ls.find? (fun l => decide (l.mac = u.mac)) = some u := by
  intro ls
  induction ls with
  | nil =>
    intro seen u hu
    simp [dedupByMac] at hu
  | cons l t ih =>
    intro seen u hu
    unfold dedupByMac at hu
    by_cases h : l.mac ∈ seen
    · rw [if_pos h] at hu
      obtain ⟨hn, hf⟩ := ih seen u hu
      have hne : ¬(l.mac = u.mac) := fun he => hn (he ▸ h)
      exact ⟨hn, by rw [List.find?_cons_of_neg t (by simpa using hne), hf]⟩
    · rw [if_neg h] at hu
      rcases List.mem_cons.mp hu with rfl | hu2
      · exact ⟨h, by rw [List.find?_cons_of_pos t (by simp)]⟩
      · obtain ⟨hn, hf⟩ := ih _ u hu2
        have hne : ¬(l.mac = u.mac) := fun he => hn (by rw [← he]; exact List.mem_cons_self _ _)
        refine ⟨fun hs => hn (List.mem_cons_of_mem _ hs), ?_⟩
        rw [List.find?_cons_of_neg t (by simpa using hne), hf]

theorem dedupByMac_countP_seen :
    ∀ (ls : List Lease) (seen : List (Option PyStr)) (mo : Option PyStr), mo ∈ seen →
      (dedupByMac ls seen).countP (fun l => decide (l.mac = mo)) = 0 := by
  intro ls
  induction ls with
  | nil =>
    intro seen mo _
    simp [dedupByMac]
  | cons l t ih =>
    intro seen mo hmo
    unfold dedupByMac
    by_cases h : l.mac ∈ seen
    · rw [if_pos h]
      exact ih seen mo hmo
    · rw [if_neg h]
      have hne : ¬(l.mac = mo) := fun he => h (he ▸ hmo)
      rw [List.countP_cons, ih (l.mac :: seen) mo (List.mem_cons_of_mem _ hmo),
        if_neg (by simpa using hne)]

theorem dedupByMac_countP :
    ∀ (ls : List Lease) (seen : List (Option PyStr)) (mo : Option PyStr), mo ∉ seen →
      (dedupByMac ls seen).countP (fun l => decide (l.mac = mo)) =
        if ∃ l ∈ ls, l.mac = mo then 1 else 0 := by
  intro ls
  induction ls with
  | nil =>
    intro seen mo _
    simp [dedupByMac]
  | cons l t ih =>
    intro seen mo hmo
    unfold dedupByMac
    by_cases h : l.mac ∈ seen
    · have hne : ¬(l.mac = mo) := fun he => hmo (he ▸ h)
      rw [if_pos h, ih seen mo hmo]
      by_cases hex : ∃ x ∈ t, x.mac = mo
      · rw [if_pos hex, if_pos (by obtain ⟨x, hx1, hx2⟩ := hex; exact ⟨x, List.mem_cons_of_mem _ hx1, hx2⟩)]
      · rw [if_neg hex, if_neg (by
          rintro ⟨x, hx1, hx2⟩
          rcases List.mem_cons.mp hx1 with rfl | hx3
          · exact hne hx2
          · exact hex ⟨x, hx3, hx2⟩)]
    · rw [if_neg h]
      by_cases hlm : l.mac = mo
      · rw [List.countP_cons, if_pos (by simpa using hlm),
          dedupByMac_countP_seen t (l.mac :: seen) mo (by rw [hlm]; simp),
          if_pos ⟨l, List.mem_cons_self _ _, hlm⟩]
      · rw [List.countP_cons, if_neg (by simpa using hlm),
          ih (l.mac :: seen) mo (by
            intro hin
            rcases List.mem_cons.mp hin with he | hin2
            · exact hlm he.symm
            · exact hmo hin2)]
        by_cases hex : ∃ x ∈ t, x.mac = mo
        · rw [if_pos hex, if_pos (by obtain ⟨x, hx1, hx2⟩ := hex; exact ⟨x, List.mem_cons_of_mem _ hx1, hx2⟩)]
        · rw [if_neg hex, if_neg (by
            rintro ⟨x, hx1, hx2⟩
            rcases List.mem_cons.mp hx1 with rfl | hx3
            · exact hlm hx2
            · exact hex ⟨x, hx3, hx2⟩)]

/-- C6: over any parsed lease store, yield_unique produces, for every MAC
present in the store, exactly one lease with that MAC, and nothing else:
every yielded lease is a store lease whose expiration is maximal among the
store leases sharing its MAC value. -/
theorem c6_yield_unique (pt : PyStr → Option Nat) (lines : List PyStr) (st : Leases)
    (hst : leasesOfLines pt lines = .ok st) :
    (∀ m : PyStr, (∃ l ∈ st.leases, l.mac = some m) →
      (Leases.yield_unique st).countP (fun l => decide (l.mac = some m)) = 1) ∧
    (∀ u ∈ Leases.yield_unique st, u ∈ st.leases ∧
      ∀ l ∈ st.leases, l.mac = u.mac → optLE l.expiration u.expiration = true) := by
  have hsorted : st.leases.Pairwise (fun a b => optLE b.expiration a.expiration = true) := by
    unfold leasesOfLines at hst
    cases hscan : scanLines pt lines ([], none) with
    | error e =>
      rw [hscan] at hst
      cases hst
    | ok p =>
      rw [hscan] at hst
      obtain ⟨em, cur⟩ := p
      dsimp only at hst
      injection hst with hst2
      rw [← hst2]
      exact store_sorted_desc em
  constructor
  · intro m hm
    unfold Leases.yield_unique
    rw [dedupByMac_countP st.leases [] (some m) (by simp), if_pos hm]
  · intro u hu
    obtain ⟨_, hfind⟩ := dedupByMac_first st.leases [] u hu
    refine ⟨(dedupByMac_sublist st.leases []).mem hu, ?_⟩
    intro l hl hlm
    exact find_max_desc _ st.leases hsorted u hfind l hl (by simpa using hlm)

/-- Witness for C6: on the demo log with two blocks sharing a MAC and
expirations T1 < T2, yield_unique yields exactly one lease for that MAC,
namely the T2 block. -/
theorem c6_yield_unique_witness :
    leasesOfLines demoTime demoLog = .ok demoStore ∧
    (∃ l ∈ demoStore.leases, l.mac = some (lit "aa:bb")) ∧
    (Leases.yield_unique demoStore).countP
      (fun l => decide (l.mac = some (lit "aa:bb"))) = 1 ∧
    Leases.yield_unique demoStore =
      [⟨lit "10.0.0.6", some (lit "aa:bb"), some 20250102030405, none⟩] := by
  refine ⟨rfl, by decide, ?_, by decide⟩
  exact (c6_yield_unique demoTime demoLog demoStore rfl).1 (lit "aa:bb") (by decide)

/-! ### C9: an unterminated trailing block is never emitted -/

theorem scanLines_cons (pt : PyStr → Option Nat) (l : PyStr) (ls : List PyStr)
    (acc : List Lease × Option Lease) :
    scanLines pt (l :: ls) acc =
      match leasesStep pt acc l with
      | .error e => .error e
      | .ok acc2 => scanLines pt ls acc2 := rfl

theorem scanLines_append (pt : PyStr → Option Nat) (xs ys : List PyStr) :
    ∀ acc, scanLines pt (xs ++ ys) acc =
      match scanLines pt xs acc with
      | .error e => .error e
      | .ok acc2 => scanLines pt ys acc2 := by
  induction xs with
  | nil =>
    intro acc
    rfl
  | cons x xs ih =>
    intro acc
    rw [List.cons_append, scanLines_cons, scanLines_cons]
    cases leasesStep pt acc x with
    | error e => rfl
    | ok acc2 =>
      dsimp only
      exact ih acc2

theorem step_keeps_open (pt : PyStr → Option Nat) (em : List Lease) (cur : Lease)
    (b : PyStr) (hb : ¬(lit "\x7d").isPrefixOf (pyStrip b)) :
    ∀ res, leasesStep pt (em, some cur) b = .ok res → res.1 = em ∧ res.2.isSome = true := by
  intro res h
  unfold leasesStep at h
  by_cases h1 : (lit "#").isPrefixOf (pyStrip b) ∨ pyStrip b = []
  · rw [if_pos h1] at h
    injection h with h2
    rw [← h2]
    exact ⟨rfl, rfl⟩
  · rw [if_neg h1] at h
    dsimp only at h
    rw [if_neg hb] at h
    cases ha : addLine pt cur (pyStrip b) with
    | error e =>
      rw [ha] at h
      cases h
    | ok c2 =>
      rw [ha] at h
      dsimp only at h
      injection h with h2
      rw [← h2]
      exact ⟨rfl, rfl⟩

theorem scanLines_open_block (pt : PyStr → Option Nat) :
    ∀ (B : List PyStr), (∀ b ∈ B, ¬(lit "\x7d").isPrefixOf (pyStrip b)) →
      ∀ (em : List Lease) (cur : Lease) (res : List Lease × Option Lease),
        scanLines pt B (em, some cur) = .ok res → res.1 = em ∧ res.2.isSome = true := by
  intro B
  induction B with
  | nil =>
    intro _ em cur res h
    injection h with h2
    rw [← h2]
    exact ⟨rfl, rfl⟩
  | cons b B ih =>
    intro hB em cur res h
    unfold scanLines at h
    cases hs : leasesStep pt (em, some cur) b with
    | error e =>
      rw [hs] at h
      cases h
    | ok acc2 =>
      rw [hs] at h
      dsimp only at h
      obtain ⟨he, hsome⟩ := step_keeps_open pt em cur b (hB b (by simp)) acc2 hs
      obtain ⟨a1, a2⟩ := acc2
      dsimp only at he hsome
      rw [he] at h
      cases a2 with
      | none => simp at hsome
      | some c2 => exact ih (fun x hx => hB x (List.mem_cons_of_mem _ hx)) em c2 res h

/-- C9: a lease log that ends inside an open block contributes nothing: if the
prefix L parses to the idle state with emitted list em, then appending an
opening "lease " line and any run of further block lines none of which starts
the closing brace yields, whenever that longer log parses successfully,
exactly the same store as L alone — the partial lease accumulated for the
trailing block is never emitted. -/
theorem c9_open_block_dropped (pt : PyStr → Option Nat) (L : List PyStr)
    (openLine : PyStr) (B : List PyStr) (em : List Lease)
    (hL : scanLines pt L ([], none) = .ok (em, none))
    (hopen : (lit "lease ").isPrefixOf (pyStrip openLine))
    (hB : ∀ b ∈ B, ¬(lit "\x7d").isPrefixOf (pyStrip b))
    (st : Leases)
    (hfull : leasesOfLines pt (L ++ openLine :: B) = .ok st) :
    leasesOfLines pt L = .ok st := by
  obtain ⟨t, ht⟩ := List.isPrefixOf_iff_prefix.mp hopen
  have hstep : ∀ res2, leasesStep pt (em, none) openLine = .ok res2 →
      ∃ c0, res2 = (em, some c0) := by
    intro res2 h
    unfold leasesStep at h
    have hnc : ¬((lit "#").isPrefixOf (pyStrip openLine) ∨ pyStrip openLine = []) := by
      rw [← ht]
      simp [lit, List.isPrefixOf]
    rw [if_neg hnc] at h
    dsimp only at h
    rw [if_pos hopen] at h
    cases hli : leaseInit (pyStrip openLine) with
    | error e =>
      rw [hli] at h
      cases h
    | ok c0 =>
      rw [hli] at h
      dsimp only at h
      injection h with h2
      exact ⟨c0, h2.symm⟩
  have happ := scanLines_append pt L (openLine :: B) ([], none)
  rw [hL] at happ
  dsimp only at happ
  unfold leasesOfLines at hfull ⊢
  rw [hL]
  cases hs1 : leasesStep pt (em, none) openLine with
  | error e =>
    have hsc : scanLines pt (openLine :: B) (em, none) = .error e := by
      rw [scanLines_cons, hs1]
    rw [hsc] at happ
    rw [happ] at hfull
    cases hfull
  | ok res2 =>
    obtain ⟨c0, rfl⟩ := hstep res2 hs1
    have hscB : scanLines pt (openLine :: B) (em, none) = scanLines pt B (em, some c0) := by
      rw [scanLines_cons, hs1]
    rw [hscB] at happ
    cases hs2 : scanLines pt B (em, some c0) with
    | error e =>
      rw [hs2] at happ
      rw [happ] at hfull
      cases hfull
    | ok res3 =>
      obtain ⟨he, _⟩ := scanLines_open_block pt B hB em c0 res3 hs2
      rw [hs2] at happ
      rw [happ] at hfull
      obtain ⟨r1, r2⟩ := res3
      dsimp only at he
      subst he
      exact hfull

/-- The emitted leases of the demo log, with the scan ending idle. -/
def demoEmitted : List Lease :=
  match scanLines demoTime demoLog ([], none) with
  | .ok (em, _) => em
  | .error _ => []

/-- Witness for C9: appending an opening line and an unclosed block body to
the demo log leaves the parsed store unchanged. -/
theorem c9_open_block_witness :
    scanLines demoTime demoLog ([], none) = .ok (demoEmitted, none) ∧
    (lit "lease ").isPrefixOf (pyStrip (lit "lease 10.0.0.7 \x7b")) = true ∧
    (∀ b ∈ [lit "  hardware ethernet cc:dd;"], ¬(lit "\x7d").isPrefixOf (pyStrip b)) ∧
    leasesOfLines demoTime
      (demoLog ++ (lit "lease 10.0.0.7 \x7b") :: [lit "  hardware ethernet cc:dd;"]) =
      .ok demoStore ∧
    leasesOfLines demoTime demoLog = .ok demoStore := by
  refine ⟨rfl, by decide, by decide, by rfl, ?_⟩
  exact c9_open_block_dropped demoTime demoLog (lit "lease 10.0.0.7 \x7b")
    [lit "  hardware ethernet cc:dd;"] demoEmitted rfl (by decide) (by decide)
    demoStore (by rfl)
